import Mathlib

/-!
Shallow embedding of the `capped` Rust crate.

The crate provides capped wrapper types: `CapU8<N>`/`CapU16<N>`/`CapU32<N>`/
`CapU64<N>`/`CapUsize<N>` (unsigned primitive capped to the range `0..N`),
`CapString<N>` (a `String` whose byte length must stay in `0..=N`) and
`CapVec<N, T>` (a `Vec<T>` whose element count must stay in `0..=N`).

Machine integers of width `w` are embedded as `Nat` with explicit `% 2 ^ w`
where the source arithmetic can wrap; where Rust would panic on a checked
overflow we also give a `...checked` variant returning `Option`.
Strings are embedded as `List Char` with an explicit UTF-8 byte length
function mirroring `char::len_utf8`; vectors as `List α`.
-/

namespace Capped

namespace CapNum

/-- Embedding of the `num!` macro body in `src/num.rs`, shared verbatim by
`cap_u8.rs`, `cap_u16.rs`, `cap_u32.rs` and `cap_usize.rs`.  `w` is the bit
width of the underlying primitive (8, 16, 32, 64); a primitive value is a
`Nat` below `2 ^ w`, and the cap `N` is itself a primitive value.
`try_from` (`impl TryFrom<$inner>`): `if value < N { Ok(Self(value)) } else
{ Err(CapError(PhantomData)) }`.  The error `CapError<T>(pub PhantomData<T>)`
carries no data, embedded as `Unit`. -/
def try_from (N value : Nat) : Except Unit Nat :=
  if value < N then Except.ok value else Except.error ()

/-- Embedding of `TryFrom` in the legacy `src/u8.rs` / `src/u64.rs` revisions
of the numeric family: `if value <= N { Ok(Self(value)) } else { Err(..) }` —
an inclusive bound, unlike the current exclusive `value < N`. -/
def legacy_try_from (N value : Nat) : Except Unit Nat :=
  if value ≤ N then Except.ok value else Except.error ()

/-- Embedding of `into_inner`: returns the wrapped primitive unchanged. -/
def into_inner (value : Nat) : Nat := value

/-- Embedding of `new_wrap`: `Self(value % N)`. -/
def new_wrap (N value : Nat) : Nat := value % N

/-- Embedding of `wrapping_add`: `Self((self.0 + rhs % N) % N)`; Rust `%`
binds tighter than `+`, so this is `(self.0 + (rhs % N)) % N`.  The `+` is
primitive addition of width `w`: in a release build it wraps modulo `2 ^ w`,
which the explicit `% 2 ^ w` records. -/
def wrapping_add (w N v rhs : Nat) : Nat :=
  ((v + rhs % N) % 2 ^ w) % N

/-- Embedding of `wrapping_add` under checked (debug) arithmetic: `none`
models the overflow panic when `self.0 + rhs % N` exceeds the primitive. -/
def wrapping_add_checked (w N v rhs : Nat) : Option Nat :=
  if v + rhs % N < 2 ^ w then some ((v + rhs % N) % N) else none

/-- Embedding of `take_increment`: `let out = *self; *self = self.wrapping_add(1);
out` — the pair is (returned value, new state of `self`). -/
def take_increment (w N v : Nat) : Nat × Nat :=
  (v, wrapping_add w N v 1)

/-- Iterating `take_increment` `k` times from state `v`: the list of returned
values together with the final state. -/
def iterate_take (w N : Nat) : Nat → Nat → List Nat × Nat
  | 0, v => ([], v)
  | k + 1, v =>
    let p := take_increment w N v
    let rest := iterate_take w N k p.2
    (p.1 :: rest.1, rest.2)

/-- Embedding of `CapNum::range` for the numeric family: `0..N`. -/
def range (N : Nat) : Nat × Nat := (0, N)

/-- Embedding of `Display for CapError<T>` (`src/error.rs`): it renders
`"value is not in range {start}..{end}"` from `T::range()` alone — the
error value itself holds only `PhantomData`. -/
def errMsg (N : Nat) : String :=
  "value is not in range " ++ toString (range N).1 ++ ".." ++ toString (range N).2

/-- Embedding of `Serialize for CapU8<N>` etc.: `serializer.serialize_u8(self.0)`
emits the inner primitive unchanged; the cap is invisible on the wire. -/
def serialize (v : Nat) : Nat := v

/-- Embedding of the deserialization error message
`format!("number {v} is greater than {N}")` in the numeric visitors. -/
def serdeErrMsg (v N : Nat) : String :=
  "number " ++ toString v ++ " is greater than " ++ toString N

/-- Embedding of the numeric visitor (`CapU8Visitor::visit_u8` in
`src/cap_u8.rs`, and `visit_u64` in the `num!` macro): accept the wire value
iff it is below `N`, otherwise fail with `serdeErrMsg`. -/
def deserialize (N v : Nat) : Except String Nat :=
  if v < N then Except.ok v else Except.error (serdeErrMsg v N)

end CapNum

namespace CapString

/-- UTF-8 byte length of one character, mirroring `char::len_utf8`. -/
def utf8Len (c : Char) : Nat :=
  if c.toNat < 0x80 then 1
  else if c.toNat < 0x800 then 2
  else if c.toNat < 0x10000 then 3
  else 4

/-- Byte length of a string modelled as a list of characters, mirroring
`String::len` (a byte count, not a character count). -/
def byteLen (s : List Char) : Nat := (s.map utf8Len).sum

/-- Embedding of `TryFrom<String> for CapString<N>`: `if value.len() <= N
{ Ok(Self(value)) } else { Err(CapStringLengthError(value.len())) }`; the
error carries the attempted byte length. -/
def try_from (N : Nat) (value : List Char) : Except Nat (List Char) :=
  if byteLen value ≤ N then Except.ok value else Except.error (byteLen value)

/-- Embedding of `CapString::push`: `let len = self.0.len() + ch.len_utf8();
if len <= N { self.0.push(ch); Ok(()) } else { Err(CapStringLengthError(len)) }`.
The pair is (buffer after the call, error if any). -/
def push (N : Nat) (s : List Char) (ch : Char) : List Char × Option Nat :=
  let len := byteLen s + utf8Len ch
  if len ≤ N then (s ++ [ch], none) else (s, some len)

/-- Embedding of `CapString::push_str`: `let len = self.0.len() + string.len();
if len <= N { self.0.push_str(string); Ok(()) } else
{ Err(CapStringLengthError(len)) }`. -/
def push_str (N : Nat) (s string : List Char) : List Char × Option Nat :=
  let len := byteLen s + byteLen string
  if len ≤ N then (s ++ string, none) else (s, some len)

/-- Embedding of `CapString::pop` (a passthrough to `String::pop`): removes
and returns the last character; `none` on an empty buffer. -/
def pop (s : List Char) : Option Char × List Char :=
  match s.getLast? with
  | none => (none, s)
  | some c => (some c, s.dropLast)

/-- Embedding of `CapString::clear` (a passthrough to `String::clear`). -/
def clear (_s : List Char) : List Char := []

/-- Helper for `truncate`: keep the characters occupying the first `n` bytes;
`none` models the `String::truncate` panic when `n` is not on a character
boundary.  Only ever entered with `n <` the byte length of the list. -/
def truncGo : List Char → Nat → Option (List Char)
  | _, 0 => some []
  | [], _ + 1 => some []
  | c :: rest, n + 1 =>
    if utf8Len c ≤ n + 1 then
      (truncGo rest (n + 1 - utf8Len c)).map (fun t => c :: t)
    else none

/-- Embedding of `CapString::truncate` (a passthrough to `String::truncate`):
no effect when `new_len` is at least the current byte length; otherwise keeps
the first `new_len` bytes, panicking (`none`) off a character boundary. -/
def truncate (s : List Char) (new_len : Nat) : Option (List Char) :=
  if byteLen s ≤ new_len then some s else truncGo s new_len

/-- Embedding of `Display for CapStringLengthError<N>`:
`"cap string length error, length {len} must be in range 0..={N}"`. -/
def errMsg (N len : Nat) : String :=
  "cap string length error, length " ++ toString len ++
    " must be in range 0..=" ++ toString N

/-- Embedding of `Serialize for CapString<N>`: `serializer.serialize_str(&self.0)`
emits the inner string unchanged. -/
def serialize (s : List Char) : List Char := s

/-- Embedding of `CapStringVisitor::visit_str` / `visit_string`: accept the
wire string iff its byte length is at most `N`, otherwise fail with serde's
`invalid_length(v.len(), ..)`; the error payload is the attempted length. -/
def deserialize (N : Nat) (v : List Char) : Except Nat (List Char) :=
  if byteLen v ≤ N then Except.ok v else Except.error (byteLen v)

end CapString

namespace CapVec

variable {α : Type _}

/-- Embedding of `CapVec::len`. -/
def len (l : List α) : Nat := l.length

/-- Embedding of `TryFrom<Vec<T>> for CapVec<N, T>`: `if value.len() <= N
{ Ok(Self(value)) } else { Err(CapVecLengthError(value.len())) }`. -/
def try_from (N : Nat) (value : List α) : Except Nat (List α) :=
  if value.length ≤ N then Except.ok value else Except.error value.length

/-- Embedding of `CapVec::push`: `let len = self.0.len() + 1; if len <= N
{ self.0.push(element); None } else { Some(element) }`.  The pair is
(vector after the call, returned `Option`). -/
def push (N : Nat) (l : List α) (element : α) : List α × Option α :=
  if l.length + 1 ≤ N then (l ++ [element], none) else (l, some element)

/-- Embedding of `CapVec::pop` (a passthrough to `Vec::pop`). -/
def pop (l : List α) : Option α × List α :=
  match l.getLast? with
  | none => (none, l)
  | some e => (some e, l.dropLast)

/-- Embedding of `CapVec::clear`. -/
def clear (_l : List α) : List α := []

/-- Embedding of `CapVec::truncate` (a passthrough to `Vec::truncate`). -/
def truncate (l : List α) (length : Nat) : List α := l.take length

/-- Embedding of `Display for CapVecLengthError<N>`:
`"cap vec length error, vec of length {len} is longer than {N}"`. -/
def errMsg (N len : Nat) : String :=
  "cap vec length error, vec of length " ++ toString len ++
    " is longer than " ++ toString N

/-- Embedding of `Serialize for CapVec<N, T>`: serializes the elements in
order as a plain sequence. -/
def serialize (l : List α) : List α := l

/-- Embedding of `CapVecVisitor::visit_seq` (`src/vec.rs`): `while let
Some(value) = seq.next_element()? { if values.len() >= N { return
Err(invalid_length(values.len(), ..)) } values.push(value) }`.  The first
list is the accumulator `values`, the second the remaining wire input; the
error payload is the accumulator length at the failure point. -/
def visit_seq (N : Nat) : List α → List α → Except Nat (List α)
  | values, [] => Except.ok values
  | values, x :: rest =>
    if N ≤ values.length then Except.error values.length
    else visit_seq N (values ++ [x]) rest

/-- Instrumented `visit_seq` that additionally counts how many wire elements
were consumed (each loop iteration reads exactly one element before the
length check); the branching mirrors `visit_seq` step for step. -/
def visit_seq_count (N : Nat) : List α → List α → Nat → Except Nat (List α) × Nat
  | values, [], k => (Except.ok values, k)
  | values, x :: rest, k =>
    if N ≤ values.length then (Except.error values.length, k + 1)
    else visit_seq_count N (values ++ [x]) rest (k + 1)

/-- Instrumented `visit_seq` returning the largest accumulator length reached
during the run; the branching mirrors `visit_seq` step for step. -/
def visit_seq_max_acc (N : Nat) : List α → List α → Nat
  | values, [] => values.length
  | values, x :: rest =>
    if N ≤ values.length then values.length
    else max values.length (visit_seq_max_acc N (values ++ [x]) rest)

/-- Embedding of `Deserialize for CapVec<N, T>`: the visitor starts with an
empty accumulator. -/
def deserialize (N : Nat) (l : List α) : Except Nat (List α) :=
  visit_seq N [] l

end CapVec

/-! Helper lemmas shared by the claim theorems. -/

/-- Every UTF-8 character occupies at least one byte. -/
lemma utf8Len_pos (c : Char) : 0 < CapString.utf8Len c := by
  unfold CapString.utf8Len
  split
  · exact Nat.one_pos
  · split
    · exact Nat.two_pos
    · split
      · exact Nat.zero_lt_succ 2
      · exact Nat.zero_lt_succ 3

/-- Byte length distributes over concatenation. -/
lemma byteLen_append (s t : List Char) :
    CapString.byteLen (s ++ t) = CapString.byteLen s + CapString.byteLen t := by
  simp [CapString.byteLen]

/-- Dropping the final character cannot increase the byte length. -/
lemma byteLen_dropLast_le (s : List Char) :
    CapString.byteLen s.dropLast ≤ CapString.byteLen s := by
  cases h : s.getLast? with
  | none =>
    rw [List.getLast?_eq_none_iff.mp h]
    exact Nat.le_refl _
  | some c =>
    have hne : s ≠ [] := by
      intro he
      rw [he] at h
      simp at h
    conv_rhs => rw [← List.dropLast_append_getLast hne]
    rw [byteLen_append]
    exact Nat.le_add_right _ _

/-- Result of `truncGo` never exceeds the original byte length. -/
lemma truncGo_byteLen_le (s : List Char) :
    ∀ n r, CapString.truncGo s n = some r →
      CapString.byteLen r ≤ CapString.byteLen s := by
  induction s with
  | nil =>
    intro n r h
    cases n with
    | zero =>
      simp [CapString.truncGo] at h
      subst h
      exact Nat.le_refl _
    | succ m =>
      simp [CapString.truncGo] at h
      subst h
      exact Nat.le_refl _
  | cons c rest ih =>
    intro n r h
    cases n with
    | zero =>
      simp [CapString.truncGo] at h
      subst h
      simp [CapString.byteLen]
    | succ m =>
      rw [CapString.truncGo] at h
      by_cases hc : CapString.utf8Len c ≤ m + 1
      · rw [if_pos hc] at h
        rcases Option.map_eq_some'.mp h with ⟨t, ht, hr⟩
        rw [← hr]
        have : CapString.byteLen (c :: t) =
            CapString.utf8Len c + CapString.byteLen t := by
          simp [CapString.byteLen]
        rw [this]
        have hrest : CapString.byteLen (c :: rest) =
            CapString.utf8Len c + CapString.byteLen rest := by
          simp [CapString.byteLen]
        rw [hrest]
        exact Nat.add_le_add_left (ih _ t ht) _
      · rw [if_neg hc] at h
        exact absurd h (by simp)

/-- Pre-reducing the right operand does not change the residue modulo `N`. -/
lemma add_mod_mod (v rhs N : Nat) : (v + rhs % N) % N = (v + rhs) % N := by
  conv_rhs => rw [Nat.add_mod]
  rw [Nat.add_mod v (rhs % N), Nat.mod_mod_of_dvd rhs (dvd_refl N)]

/-- Absent primitive overflow, `wrapping_add` realises `(v + rhs) % N`. -/
lemma wrapping_add_eq_mod (w N v rhs : Nat)
    (h : v + rhs % N < 2 ^ w) :
    CapNum.wrapping_add w N v rhs = (v + rhs) % N := by
  unfold CapNum.wrapping_add
  rw [Nat.mod_eq_of_lt h, add_mod_mod]

/-- Advancing by one from a state below the cap: no primitive overflow, and
the new state is `(v + 1) % N`. -/
lemma take_increment_step (w N v : Nat) (hw : N < 2 ^ w)
    (hv : v < N) :
    CapNum.take_increment w N v =
      (v, (v + 1) % N) ∧ v + 1 % N < 2 ^ w := by
  have hfit : v + 1 % N < 2 ^ w := by
    have h1 : 1 % N ≤ 1 := Nat.mod_le 1 N
    omega
  refine ⟨?_, hfit⟩
  unfold CapNum.take_increment
  rw [wrapping_add_eq_mod w N v 1 hfit]

/-- Iterating `take_increment` along a stretch that stays below the cap
returns consecutive values and ends at `(v + k) % N`. -/
lemma iterate_take_spec (w N : Nat) (hw : N < 2 ^ w) :
    ∀ k v, v < N → v + k ≤ N →
      CapNum.iterate_take w N k v = (List.range' v k, (v + k) % N) := by
  intro k
  induction k with
  | zero =>
    intro v hv _
    simp [CapNum.iterate_take, Nat.mod_eq_of_lt hv]
  | succ k ih =>
    intro v hv hvk
    have hstep := (take_increment_step w N v hw hv).1
    rw [CapNum.iterate_take, hstep]
    by_cases hlt : v + 1 < N
    · have hnext : (v + 1) % N = v + 1 := Nat.mod_eq_of_lt hlt
      rw [hnext, ih (v + 1) hlt (by omega)]
      rw [List.range'_succ]
      have harith : v + 1 + k = v + (k + 1) := by omega
      simp [harith]
    · have hk : k = 0 := by omega
      have heq : v + 1 = N := by omega
      subst hk
      have hzero : (v + 1) % N = 0 := by
        rw [heq, Nat.mod_self]
      rw [hzero]
      simp [CapNum.iterate_take, List.range'_succ, heq]

/-- When the accumulator plus the remaining input fits the cap, `visit_seq`
accepts and returns everything in order. -/
lemma visit_seq_ok {α : Type _} (N : Nat) :
    ∀ (l values : List α), values.length + l.length ≤ N →
      CapVec.visit_seq N values l = Except.ok (values ++ l) := by
  intro l
  induction l with
  | nil =>
    intro values _
    simp [CapVec.visit_seq]
  | cons x rest ih =>
    intro values h
    rw [CapVec.visit_seq]
    have hlt : ¬ N ≤ values.length := by
      simp only [List.length_cons] at h
      omega
    rw [if_neg hlt, ih (values ++ [x]) (by simp at h ⊢; omega)]
    simp

/-- When the accumulator plus the remaining input exceeds the cap (the
accumulator itself still fitting), `visit_seq` fails with error payload `N`. -/
lemma visit_seq_err {α : Type _} (N : Nat) :
    ∀ (l values : List α), values.length ≤ N →
      N < values.length + l.length →
      CapVec.visit_seq N values l = Except.error N := by
  intro l
  induction l with
  | nil =>
    intro values hv h
    simp at h
    omega
  | cons x rest ih =>
    intro values hv h
    rw [CapVec.visit_seq]
    by_cases hge : N ≤ values.length
    · rw [if_pos hge]
      have : values.length = N := Nat.le_antisymm hv hge
      rw [this]
    · rw [if_neg hge]
      refine ih (values ++ [x]) (by simp; omega) ?_
      simp at h ⊢
      omega

/-- The counting instrument computes the same result as `visit_seq`. -/
lemma visit_seq_count_fst {α : Type _} (N : Nat) :
    ∀ (l values : List α) (k : Nat),
      (CapVec.visit_seq_count N values l k).1 = CapVec.visit_seq N values l := by
  intro l
  induction l with
  | nil =>
    intro values k
    simp [CapVec.visit_seq_count, CapVec.visit_seq]
  | cons x rest ih =>
    intro values k
    rw [CapVec.visit_seq_count, CapVec.visit_seq]
    by_cases hge : N ≤ values.length
    · rw [if_pos hge, if_pos hge]
    · rw [if_neg hge, if_neg hge, ih]

/-- Number of wire elements consumed: all of them when the input fits, and
exactly one past the cap otherwise. -/
lemma visit_seq_count_spec {α : Type _} (N : Nat) :
    ∀ (l values : List α) (k : Nat), values.length ≤ N →
      (CapVec.visit_seq_count N values l k).2 =
        k + min l.length (N + 1 - values.length) := by
  intro l
  induction l with
  | nil =>
    intro values k _
    simp [CapVec.visit_seq_count]
  | cons x rest ih =>
    intro values k hv
    rw [CapVec.visit_seq_count]
    by_cases hge : N ≤ values.length
    · rw [if_pos hge]
      show k + 1 = k + min (rest.length + 1) (N + 1 - values.length)
      omega
    · rw [if_neg hge]
      rw [ih (values ++ [x]) (k + 1) (by simp; omega)]
      simp only [List.length_append, List.length_singleton, List.length_cons,
        List.length_nil]
      omega

/-- A successful `push` keeps the byte length within the cap. -/
lemma push_byteLen_le (N : Nat) (s : List Char) (c : Char)
    (hs : CapString.byteLen s ≤ N) :
    CapString.byteLen (CapString.push N s c).1 ≤ N := by
  simp only [CapString.push]
  by_cases h : CapString.byteLen s + CapString.utf8Len c ≤ N
  · rw [if_pos h]
    have : CapString.byteLen (s ++ [c]) =
        CapString.byteLen s + CapString.utf8Len c := by
      simp [CapString.byteLen]
    simpa [this] using h
  · rw [if_neg h]
    exact hs

/-- A `push_str` call keeps the byte length within the cap. -/
lemma push_str_byteLen_le (N : Nat) (s t : List Char)
    (hs : CapString.byteLen s ≤ N) :
    CapString.byteLen (CapString.push_str N s t).1 ≤ N := by
  simp only [CapString.push_str]
  by_cases h : CapString.byteLen s + CapString.byteLen t ≤ N
  · rw [if_pos h]
    simpa [byteLen_append] using h
  · rw [if_neg h]
    exact hs

/-- A `pop` call keeps the byte length within the cap. -/
lemma pop_byteLen_le (N : Nat) (s : List Char)
    (hs : CapString.byteLen s ≤ N) :
    CapString.byteLen (CapString.pop s).2 ≤ N := by
  unfold CapString.pop
  cases h : s.getLast? with
  | none => exact hs
  | some c => exact Nat.le_trans (byteLen_dropLast_le s) hs

/-- A non-panicking `truncate` keeps the byte length within the cap. -/
lemma truncate_byteLen_le (N : Nat) (s : List Char) (n : Nat) (r : List Char)
    (hs : CapString.byteLen s ≤ N) (h : CapString.truncate s n = some r) :
    CapString.byteLen r ≤ N := by
  unfold CapString.truncate at h
  by_cases hc : CapString.byteLen s ≤ n
  · rw [if_pos hc] at h
    rw [← Option.some.inj h]
    exact hs
  · rw [if_neg hc] at h
    exact Nat.le_trans (truncGo_byteLen_le s n r h) hs

/-- The accumulator never exceeds the cap during a `visit_seq` run. -/
lemma visit_seq_max_acc_le {α : Type _} (N : Nat) :
    ∀ (l values : List α), values.length ≤ N →
      CapVec.visit_seq_max_acc N values l ≤ N := by
  intro l
  induction l with
  | nil =>
    intro values hv
    simpa [CapVec.visit_seq_max_acc] using hv
  | cons x rest ih =>
    intro values hv
    rw [CapVec.visit_seq_max_acc]
    by_cases hge : N ≤ values.length
    · rw [if_pos hge]
      exact hv
    · rw [if_neg hge]
      exact max_le hv (ih (values ++ [x]) (by simp; omega))

end Capped

open Capped

/-! Claim theorems. -/

/-- C2, counterexample: the claim requires the exclusive boundary (`try_from(N)`
itself fails) uniformly for every width variant in the source, but the legacy
`src/u8.rs` revision of `CapU8` validates with the inclusive `value <= N`:
`CapU8::<5>::try_from(5)` succeeds there (its own test asserts exactly this). -/
theorem c2_boundary_counterexample :
    CapNum.legacy_try_from 5 5 = Except.ok 5 := by
  rfl

/-- C2, amended: for the current numeric family (`num.rs` macro and the
`cap_u8.rs`/`cap_u16.rs`/`cap_u32.rs`/`cap_usize.rs` files) `try_from v`
succeeds iff `v < N` and on success `into_inner` returns exactly `v`; the
legacy `u8.rs`/`u64.rs` revisions instead succeed iff `v ≤ N`. -/
theorem c2_boundary_amended (N v : Nat) :
    (CapNum.try_from N v = Except.ok v ↔ v < N) ∧
    (∀ r, CapNum.try_from N v = Except.ok r → CapNum.into_inner r = v) ∧
    (¬ v < N → CapNum.try_from N v = Except.error ()) ∧
    (CapNum.legacy_try_from N v = Except.ok v ↔ v ≤ N) := by
  unfold CapNum.try_from CapNum.legacy_try_from CapNum.into_inner
  refine ⟨?_, ?_, ?_, ?_⟩
  · by_cases h : v < N
    · simp [h]
    · simp [h]
  · intro r hr
    by_cases h : v < N
    · rw [if_pos h] at hr
      have := Except.ok.inj hr
      omega
    · rw [if_neg h] at hr
      exact absurd hr (by simp)
  · intro h
    rw [if_neg h]
  · by_cases h : v ≤ N
    · simp [h]
    · simp [h]

/-- C2, witness: boundary behaviour at `N = 5` — the current family accepts 4
and rejects 5; the legacy family accepts 5. -/
theorem c2_boundary_witness :
    CapNum.try_from 5 4 = Except.ok 4 ∧
    CapNum.try_from 5 5 = Except.error () :=
  ⟨(c2_boundary_amended 5 4).1.mpr (by decide),
   (c2_boundary_amended 5 5).2.2.1 (by decide)⟩

/-- C3, code-bug evaluation: `wrapping_add` computes `self.0 + rhs % N` in the
primitive width, so at `CapU8::<200>` with value 199 and `rhs = 199` the sum
`199 + 199 = 398` overflows `u8`: under checked (debug) arithmetic no value
is produced (panic), and under release wrap-around the result is `142`, not
the claimed `(199 + 199) % 200 = 198`. -/
theorem c3_wrapping_add_overflow :
    CapNum.wrapping_add_checked 8 200 199 199 = none ∧
    CapNum.wrapping_add 8 200 199 199 = 142 ∧
    (199 + 199) % 200 = 198 ∧
    CapNum.wrapping_add 8 200 199 199 ≠ (199 + 199) % 200 := by
  refine ⟨?_, ?_, ?_, ?_⟩ <;> decide

/-- C4: `push_str` is atomic — when the combined byte length fits the cap it
appends exactly `old ++ s` and reports no error; otherwise the buffer is
returned byte-for-byte unchanged together with the length error carrying the
attempted combined length. -/
theorem c4_push_str_atomic (N : Nat) (old s : List Char) :
    (CapString.byteLen old + CapString.byteLen s ≤ N →
      CapString.push_str N old s = (old ++ s, none)) ∧
    (N < CapString.byteLen old + CapString.byteLen s →
      CapString.push_str N old s =
        (old, some (CapString.byteLen old + CapString.byteLen s))) := by
  unfold CapString.push_str
  constructor
  · intro h
    rw [if_pos h]
  · intro h
    rw [if_neg (by omega)]

/-- C4, witness: at `N = 3`, pushing "c" onto "ab" appends; pushing "cd"
is rejected with the buffer unchanged and error length 4. -/
theorem c4_push_str_witness :
    CapString.push_str 3 ['a', 'b'] ['c'] = (['a', 'b', 'c'], none) ∧
    CapString.push_str 3 ['a', 'b'] ['c', 'd'] = (['a', 'b'], some 4) :=
  ⟨(c4_push_str_atomic 3 ['a', 'b'] ['c']).1 (by decide),
   (c4_push_str_atomic 3 ['a', 'b'] ['c', 'd']).2 (by decide)⟩

/-- C5: `CapVec::push` appends and returns `none` when there is room,
increasing the length by exactly one; at capacity it returns the element
back unchanged and leaves the vector untouched. -/
theorem c5_vec_push {α : Type _} (N : Nat) (l : List α) (e : α) :
    (l.length < N →
      CapVec.push N l e = (l ++ [e], none) ∧
      (CapVec.push N l e).1.length = l.length + 1) ∧
    (l.length = N → CapVec.push N l e = (l, some e)) := by
  unfold CapVec.push
  constructor
  · intro h
    rw [if_pos (by omega)]
    exact ⟨rfl, by simp⟩
  · intro h
    rw [if_neg (by omega)]

/-- C5, witness: at capacity 2, pushing onto `[10]` absorbs the element;
pushing onto `[10, 11]` hands it back with the vector unchanged. -/
theorem c5_vec_push_witness :
    CapVec.push 2 [10] 7 = ([10, 7], none) ∧
    CapVec.push 2 [10, 11] 7 = ([10, 11], some 7) :=
  ⟨((c5_vec_push 2 [10] 7).1 (by decide)).1,
   (c5_vec_push 2 [10, 11] 7).2 (by decide)⟩

/-- C1: cap invariant preservation.  Numerically (for every primitive width
`w` and cap `N > 0`): a successful `try_from` yields a value below `N`;
`new_wrap`, `wrapping_add` (both the release wrap-around result and any value
produced under checked arithmetic) and both components of `take_increment`
stay below `N`.  For `CapString<N>` with a buffer satisfying the invariant:
`push`, `push_str`, `pop`, a non-panicking `truncate`, and `clear` all leave
the byte length at most `N`. -/
theorem c1_cap_invariant (w N v rhs n : Nat) (s t : List Char) (c : Char)
    (hN : 0 < N) (hs : CapString.byteLen s ≤ N) :
    (∀ u r, CapNum.try_from N u = Except.ok r → r < N) ∧
    CapNum.new_wrap N v < N ∧
    CapNum.wrapping_add w N v rhs < N ∧
    (∀ r, CapNum.wrapping_add_checked w N v rhs = some r → r < N) ∧
    (v < N → (CapNum.take_increment w N v).1 < N) ∧
    (CapNum.take_increment w N v).2 < N ∧
    CapString.byteLen (CapString.push N s c).1 ≤ N ∧
    CapString.byteLen (CapString.push_str N s t).1 ≤ N ∧
    CapString.byteLen (CapString.pop s).2 ≤ N ∧
    (∀ r, CapString.truncate s n = some r → CapString.byteLen r ≤ N) ∧
    CapString.byteLen (CapString.clear s) ≤ N := by
  refine ⟨?_, ?_, ?_, ?_, ?_, ?_, ?_, ?_, ?_, ?_, ?_⟩
  · intro u r h
    unfold CapNum.try_from at h
    by_cases hu : u < N
    · rw [if_pos hu] at h
      rw [← Except.ok.inj h]
      exact hu
    · rw [if_neg hu] at h
      exact absurd h (by simp)
  · exact Nat.mod_lt v hN
  · exact Nat.mod_lt _ hN
  · intro r h
    unfold CapNum.wrapping_add_checked at h
    by_cases hf : v + rhs % N < 2 ^ w
    · rw [if_pos hf] at h
      rw [← Option.some.inj h]
      exact Nat.mod_lt _ hN
    · rw [if_neg hf] at h
      exact absurd h (by simp)
  · intro hv
    exact hv
  · exact Nat.mod_lt _ hN
  · exact push_byteLen_le N s c hs
  · exact push_str_byteLen_le N s t hs
  · exact pop_byteLen_le N s hs
  · intro r h
    exact truncate_byteLen_le N s n r hs h
  · exact Nat.zero_le N

/-- C1, witness: concrete checks at width 8, cap 5, with the buffer "ab". -/
theorem c1_cap_invariant_witness :
    CapNum.new_wrap 5 13 < 5 ∧
    CapString.byteLen (CapString.push 5 ['a', 'b'] 'c').1 ≤ 5 := by
  have h := c1_cap_invariant 8 5 13 9 1 ['a', 'b'] ['d'] 'c'
    (by decide) (by decide)
  exact ⟨h.2.1, h.2.2.2.2.2.2.1⟩

/-- C6, counterexample: the numeric family's `CapError` is a `PhantomData`
tag with no fields — `CapU8::<5>::try_from(7)` and `try_from(99)` return
identical errors, so the error cannot carry the attempted value, and the
rendered message names only the range, never the out-of-range value 7. -/
theorem c6_caperror_counterexample :
    CapNum.try_from 5 7 = Except.error () ∧
    CapNum.try_from 5 7 = CapNum.try_from 5 99 ∧
    CapNum.errMsg 5 = "value is not in range 0..5" ∧
    '7' ∉ (CapNum.errMsg 5).data := by
  refine ⟨rfl, rfl, ?_, ?_⟩
  · rfl
  · decide

/-- C6, amended: the string and vec length errors carry the attempted length
and their messages name both the length and the bound `N`, and the numeric
serde deserialization message names the rejected value and `N`; but the
numeric constructor's `CapError` carries no data at all — out-of-range inputs
all map to the same error, whose message renders only the range `0..N`. -/
theorem c6_error_context_amended {α : Type _} (N v len : Nat) (s : List Char)
    (l : List α) :
    (N < CapString.byteLen s →
      CapString.try_from N s = Except.error (CapString.byteLen s)) ∧
    (N < l.length → CapVec.try_from N l = Except.error l.length) ∧
    (∃ p q, (CapString.errMsg N len).data = p ++ (toString len).data ++ q) ∧
    (∃ p q, (CapString.errMsg N len).data = p ++ (toString N).data ++ q) ∧
    (∃ p q, (CapVec.errMsg N len).data = p ++ (toString len).data ++ q) ∧
    (∃ p q, (CapVec.errMsg N len).data = p ++ (toString N).data ++ q) ∧
    (∃ p q, (CapNum.serdeErrMsg v N).data = p ++ (toString v).data ++ q) ∧
    (∃ p q, (CapNum.serdeErrMsg v N).data = p ++ (toString N).data ++ q) ∧
    (¬ v < N → CapNum.try_from N v = Except.error ()) ∧
    (∀ v2, ¬ v < N → ¬ v2 < N →
      CapNum.try_from N v = CapNum.try_from N v2) := by
  refine ⟨?_, ?_, ?_, ?_, ?_, ?_, ?_, ?_, ?_, ?_⟩
  · intro h
    unfold CapString.try_from
    rw [if_neg (by omega)]
  · intro h
    unfold CapVec.try_from
    rw [if_neg (by omega)]
  · refine ⟨"cap string length error, length ".data,
      (" must be in range 0..=" ++ toString N).data, ?_⟩
    simp [CapString.errMsg, String.data_append]
  · refine ⟨("cap string length error, length " ++ toString len ++
      " must be in range 0..=").data, [], ?_⟩
    simp [CapString.errMsg, String.data_append]
  · refine ⟨"cap vec length error, vec of length ".data,
      (" is longer than " ++ toString N).data, ?_⟩
    simp [CapVec.errMsg, String.data_append]
  · refine ⟨("cap vec length error, vec of length " ++ toString len ++
      " is longer than ").data, [], ?_⟩
    simp [CapVec.errMsg, String.data_append]
  · refine ⟨"number ".data, (" is greater than " ++ toString N).data, ?_⟩
    simp [CapNum.serdeErrMsg, String.data_append]
  · refine ⟨("number " ++ toString v ++ " is greater than ").data, [], ?_⟩
    simp [CapNum.serdeErrMsg, String.data_append]
  · intro h
    unfold CapNum.try_from
    rw [if_neg h]
  · intro v2 h h2
    unfold CapNum.try_from
    rw [if_neg h, if_neg h2]

/-- C6, amended claim witness: concrete error payloads at cap 3. -/
theorem c6_error_context_witness :
    CapString.try_from 3 ['a', 'b', 'c', 'd'] = Except.error 4 ∧
    CapVec.try_from 3 [1, 2, 3, 4] = Except.error 4 ∧
    CapNum.try_from 3 9 = Except.error () := by
  have h := c6_error_context_amended 3 9 4 ['a', 'b', 'c', 'd'] [1, 2, 3, 4]
  exact ⟨h.1 (by decide), h.2.1 (by decide), h.2.2.2.2.2.2.2.2.1 (by decide)⟩

/-- C7: the `CapVec` deserialization visitor consumes elements one at a time:
it accepts exactly the inputs of length at most `N` (returning them in
order), fails with error payload `N` on longer input, keeps the accumulator
at no more than `N` elements throughout, and consumes only
`min (length, N + 1)` wire elements, so oversized input is never buffered
past the first excess element. -/
theorem c7_visit_seq_bounded {α : Type _} (N : Nat) (l : List α) :
    (l.length ≤ N → CapVec.visit_seq N [] l = Except.ok l) ∧
    (N < l.length → CapVec.visit_seq N [] l = Except.error N) ∧
    CapVec.visit_seq_max_acc N [] l ≤ N ∧
    (CapVec.visit_seq_count N [] l 0).1 = CapVec.visit_seq N [] l ∧
    (CapVec.visit_seq_count N [] l 0).2 = min l.length (N + 1) := by
  refine ⟨?_, ?_, ?_, ?_, ?_⟩
  · intro h
    have := visit_seq_ok N l [] (by simpa using h)
    simpa using this
  · intro h
    exact visit_seq_err N l [] (by simp) (by simpa using h)
  · exact visit_seq_max_acc_le N l [] (by simp)
  · exact visit_seq_count_fst N l [] 0
  · have := visit_seq_count_spec N l [] 0 (by simp)
    simpa using this

/-- C7, witness: with cap 2, the three-element input `[5, 6, 7]` is rejected
with error payload 2. -/
theorem c7_visit_seq_witness :
    CapVec.visit_seq 2 [] [5, 6, 7] = Except.error 2 :=
  (c7_visit_seq_bounded 2 [5, 6, 7]).2.1 (by decide)

/-- C8: `take_increment` returns the pre-advance value and leaves the counter
at `wrapping_add 1` of the original (with no primitive overflow possible for
`rhs = 1`), and `N` repeated calls starting from 0 return `0, 1, ..., N - 1`
in order and leave the counter back at 0. -/
theorem c8_take_increment_cycle (w N : Nat) (hN : 0 < N) (hw : N < 2 ^ w) :
    (∀ v, CapNum.take_increment w N v = (v, CapNum.wrapping_add w N v 1)) ∧
    (∀ v, v < N → CapNum.wrapping_add_checked w N v 1 =
      some (CapNum.wrapping_add w N v 1)) ∧
    CapNum.iterate_take w N N 0 = (List.range N, 0) := by
  refine ⟨fun v => rfl, ?_, ?_⟩
  · intro v hv
    have hfit : v + 1 % N < 2 ^ w := (take_increment_step w N v hw hv).2
    unfold CapNum.wrapping_add_checked CapNum.wrapping_add
    rw [if_pos hfit, Nat.mod_eq_of_lt hfit]
  · have h := iterate_take_spec w N hw N 0 hN (by omega)
    rw [List.range_eq_range']
    simpa using h

/-- C8, witness: at width 8 and cap 3, three calls from 0 return 0, 1, 2 and
wrap the counter back to 0. -/
theorem c8_take_increment_witness :
    0 < 3 ∧ CapNum.iterate_take 8 3 3 0 = (List.range 3, 0) :=
  ⟨by decide, (c8_take_increment_cycle 8 3 (by decide) (by decide)).2.2⟩

/-- C9: serialize-then-deserialize round trip — every in-range capped number,
string and vec deserializes back successfully to an equal value. -/
theorem c9_round_trip {α : Type _} (N v : Nat) (s : List Char) (l : List α)
    (hv : v < N) (hs : CapString.byteLen s ≤ N) (hl : l.length ≤ N) :
    CapNum.deserialize N (CapNum.serialize v) = Except.ok v ∧
    CapString.deserialize N (CapString.serialize s) = Except.ok s ∧
    CapVec.deserialize N (CapVec.serialize l) = Except.ok l := by
  refine ⟨?_, ?_, ?_⟩
  · unfold CapNum.deserialize CapNum.serialize
    rw [if_pos hv]
  · unfold CapString.deserialize CapString.serialize
    rw [if_pos hs]
  · unfold CapVec.deserialize CapVec.serialize
    have := visit_seq_ok N l [] (by simpa using hl)
    simpa using this

/-- C9, witness: round trips at cap 5 for the number 3, the string "hi" and
the vec `[1, 2, 3]`. -/
theorem c9_round_trip_witness :
    CapNum.deserialize 5 (CapNum.serialize 3) = Except.ok 3 ∧
    CapString.deserialize 5 (CapString.serialize ['h', 'i']) =
      Except.ok ['h', 'i'] ∧
    CapVec.deserialize 5 (CapVec.serialize [1, 2, 3]) = Except.ok [1, 2, 3] :=
  c9_round_trip 5 3 ['h', 'i'] [1, 2, 3] (by decide) (by decide) (by decide)

/-- C10: `pop` never fails — on an empty string or vec it returns `none` and
leaves the container unchanged; on a non-empty one it returns the last
character/element, shortens the container accordingly, and the cap invariant
is preserved. -/
theorem c10_pop_total {α : Type _} (N : Nat) (s : List Char) (l : List α)
    (hs : CapString.byteLen s ≤ N) (hl : l.length ≤ N) :
    (s = [] → CapString.pop s = (none, s)) ∧
    (s ≠ [] → ∃ c t, s = t ++ [c] ∧ CapString.pop s = (some c, t) ∧
      CapString.byteLen t + CapString.utf8Len c = CapString.byteLen s ∧
      CapString.byteLen t ≤ N) ∧
    (l = [] → CapVec.pop l = (none, l)) ∧
    (l ≠ [] → ∃ e t, l = t ++ [e] ∧ CapVec.pop l = (some e, t) ∧
      t.length + 1 = l.length ∧ t.length ≤ N) := by
  refine ⟨?_, ?_, ?_, ?_⟩
  · intro h
    subst h
    rfl
  · intro h
    refine ⟨s.getLast h, s.dropLast, (List.dropLast_append_getLast h).symm,
      ?_, ?_, Nat.le_trans (byteLen_dropLast_le s) hs⟩
    · unfold CapString.pop
      rw [List.getLast?_eq_getLast s h]
    · conv_rhs => rw [← List.dropLast_append_getLast h]
      rw [byteLen_append]
      simp [CapString.byteLen]
  · intro h
    subst h
    rfl
  · intro h
    refine ⟨l.getLast h, l.dropLast, (List.dropLast_append_getLast h).symm,
      ?_, ?_, ?_⟩
    · unfold CapVec.pop
      rw [List.getLast?_eq_getLast l h]
    · conv_rhs => rw [← List.dropLast_append_getLast h]
      simp
    · refine Nat.le_trans ?_ hl
      rw [← List.dropLast_append_getLast h]
      simp

/-- C10, witness: popping the empty string and the empty vec returns `none`
and leaves them empty. -/
theorem c10_pop_witness :
    CapString.pop ([] : List Char) = (none, []) ∧
    CapVec.pop ([] : List Nat) = (none, []) := by
  have h := c10_pop_total 5 ([] : List Char) ([] : List Nat)
    (by decide) (by decide)
  exact ⟨h.1 rfl, h.2.2.1 rfl⟩
